import Mathlib

/-!
Verification development for the `rag-ask-demo` retrieval pipeline.

The TypeScript sources are shallowly embedded below:
* JavaScript strings are modelled as `Str := List Char` (ASCII character
  classes stand in for the regexp classes `\s`, `\w`, `[.!?]`).
* JavaScript numbers appearing in scores are modelled as real numbers; the
  integer arithmetic of the chunker (`Math.ceil(words * 1.3)`,
  `maxTokens * 1.5`, `Math.floor(overlapTokens / 1.3)`) is modelled by exact
  rational/natural arithmetic, which agrees with the IEEE-754 evaluation on
  all inputs of realistic size.
* SHA-256 hashing (`createHash('sha256')`) is not re-implemented; every
  function that hashes takes the hash function as an explicit parameter
  (`hash : Str → Str`), and chunk-id creation takes a `cid` parameter in
  place of `createChunkId`.
* File-system state for the embedding cache is modelled as an association
  list from the path triple `(provider, safeModelName model, contentHash)`
  to the parsed file content; `none` as the stored value models a file whose
  content fails `JSON.parse`.
* `async` functions are modelled as pure state-passing functions; a thrown
  exception is modelled with `Except`.
-/

/-- JavaScript strings, modelled as lists of characters. -/
abbrev Str := List Char

/-- ASCII model of the regexp class `\s` (JavaScript whitespace). -/
def isWS (c : Char) : Bool :=
  c = ' ' || c = '\t' || c = '\n' || c = '\r' || c = '\x0c' || c = '\x0b'

/-- The sentence-ending characters of `splitIntoSentences` (`[.!?]`). -/
def isSentEnd (c : Char) : Bool :=
  c = '.' || c = '!' || c = '?'

/-- ASCII model of the regexp class `\w` (word characters). -/
def isWordChar (c : Char) : Bool :=
  ('a' ≤ c && c ≤ 'z') || ('A' ≤ c && c ≤ 'Z') || ('0' ≤ c && c ≤ '9') || c = '_'

/-- JavaScript `String.prototype.trim`: drop whitespace from both ends. -/
def jsTrim (s : Str) : Str :=
  ((s.dropWhile isWS).reverse.dropWhile isWS).reverse

/-- Model of JavaScript `str.split(/<sep>+/)` where `isSep` models the
character class `<sep>`: separators are maximal runs of separator
characters; a leading or trailing run contributes an empty field, exactly as
the JavaScript regexp split does.  `inSep` records whether the scan is
currently inside a separator run. -/
def jsSplitOnAux (isSep : Char → Bool) : Str → Str → Bool → List Str
  | [], acc, _ => [acc.reverse]
  | c :: cs, acc, inSep =>
    if isSep c then
      if inSep then jsSplitOnAux isSep cs [] true
      else acc.reverse :: jsSplitOnAux isSep cs [] true
    else jsSplitOnAux isSep cs (c :: acc) false

/-- JavaScript `str.split(/<sep>+/)`. -/
def jsSplitOn (isSep : Char → Bool) (s : Str) : List Str :=
  jsSplitOnAux isSep s [] false

/-- JavaScript `str.split(/\s+/)` as used by `chunkDocument`'s word mode. -/
def jsSplitWS (s : Str) : List Str :=
  jsSplitOn isWS s

/-- `text.trim().split(/\s+/).filter(w => w.length > 0)` from
`estimateTokens` in `document-chunker.ts`. -/
def jsWords (s : Str) : List Str :=
  (jsSplitWS (jsTrim s)).filter (fun w => decide (w ≠ []))

/-- `estimateTokens` from `document-chunker.ts`:
`Math.ceil(words.length * 1.3)`.  For word counts below `2^49` the IEEE-754
double evaluation of `Math.ceil(n * 1.3)` equals `⌈13n/10⌉ = (13n+9)/10`,
which is the form used here. -/
def estimateTokens (s : Str) : ℕ :=
  (13 * (jsWords s).length + 9) / 10

/-- `shouldChunk` from `document-chunker.ts`:
`estimateTokens(text) > maxTokens * 1.5` (the multiplication by 1.5 is exact
in IEEE-754, so exact rational comparison is faithful). -/
def shouldChunk (text : Str) (maxTokens : ℕ) : Bool :=
  decide ((estimateTokens text : ℚ) > (maxTokens : ℚ) * 3 / 2)

/-- Scanner for `splitIntoSentences`' regexp split
`text.split(/(?<=[.!?])\s+/)`: a delimiter is a maximal whitespace run whose
preceding character is `.`, `!` or `?`.  `acc` is the reversed current
sentence; `skipping` is true while consuming the remainder of a delimiter
run. -/
def sentSplitAux : Str → Str → Bool → List Str
  | [], acc, _ => [acc.reverse]
  | c :: cs, acc, skipping =>
    if skipping then
      if isWS c then sentSplitAux cs acc true
      else sentSplitAux cs [c] false
    else if isWS c && (match acc with | p :: _ => isSentEnd p | [] => false) then
      acc.reverse :: sentSplitAux cs [] true
    else sentSplitAux cs (c :: acc) false

/-- `splitIntoSentences` from `document-chunker.ts`: split on sentence
endings keeping the delimiter, and drop blank sentences
(`filter(s => s.trim().length > 0)`). -/
def splitIntoSentences (text : Str) : List Str :=
  (sentSplitAux text [] false).filter (fun s => decide (jsTrim s ≠ []))

/-- JavaScript `Array.prototype.join(' ')`. -/
def joinSpace : List Str → Str
  | [] => []
  | [s] => s
  | s :: rest => s ++ ' ' :: joinSpace rest

/-- A chunk of a document (`Chunk` in `document-chunker.ts`).  The optional
`metadata` bag is omitted: `chunkDocument` never sets it.  Offsets are
integers because the word-mode bookkeeping can in principle go negative. -/
structure Chunk where
  id : Str
  documentId : Str
  text : Str
  startOffset : ℤ
  endOffset : ℤ
  chunkIndex : ℕ
  totalChunks : ℕ
deriving DecidableEq, Repr

/-- `ChunkOptions` with the `DEFAULT_OPTIONS` of `document-chunker.ts`. -/
structure ChunkOptions where
  maxTokens : ℕ := 500
  overlapTokens : ℕ := 100
  preserveSentences : Bool := true
deriving DecidableEq, Repr

/-- State of the sentence-preserving loop of `chunkDocument`:
`chunks`/`currentChunkText`/`currentTokenCount`/`chunkStartOffset`. -/
structure SState where
  chunks : List Chunk
  cur : Str
  curTokens : ℕ
  startOff : ℤ
deriving Repr

/-- The backwards overlap-collection loop of `chunkDocument` (sentence
mode).  It receives the previously consumed sentences in reverse order
(`sentences[i-1], sentences[i-2], …`) and re-builds the selected suffix in
original order by prepending, exactly like the source's `unshift`. -/
def collectOverlap (overlapTokens : ℕ) : List Str → ℕ → List Str → List Str × ℕ
  | [], cnt, acc => (acc, cnt)
  | s :: rest, cnt, acc =>
    if cnt < overlapTokens then
      if cnt + estimateTokens s ≤ overlapTokens then
        collectOverlap overlapTokens rest (cnt + estimateTokens s) (s :: acc)
      else (acc, cnt)
    else (acc, cnt)

/-- Closing the current chunk in sentence mode: push the chunk (text
trimmed, `chunkIndex := chunks.length`, `totalChunks := 0` for now) and seed
the next chunk with the overlap sentences. -/
def closeChunk (documentId : Str) (cid : Str → ℕ → Str → Str)
    (overlapTokens : ℕ) (consumedRev : List Str) (st : SState) : SState :=
  let chunkEndOffset : ℤ := st.startOff + st.cur.length
  let ov := collectOverlap overlapTokens consumedRev 0 []
  let newCur := joinSpace ov.1
  { chunks := st.chunks ++
      [{ id := cid documentId st.chunks.length st.cur
         documentId := documentId
         text := jsTrim st.cur
         startOffset := st.startOff
         endOffset := chunkEndOffset
         chunkIndex := st.chunks.length
         totalChunks := 0 }]
    cur := newCur
    curTokens := ov.2
    startOff := chunkEndOffset - newCur.length }

/-- Appending the current sentence to the chunk buffer
(`if (currentChunkText) currentChunkText += ' '; currentChunkText += sentence`). -/
def appendSentence (st : SState) (s : Str) (tok : ℕ) : SState :=
  { st with
    cur := if st.cur ≠ [] then st.cur ++ ' ' :: s else s
    curTokens := st.curTokens + tok }

/-- One iteration of the sentence loop of `chunkDocument`. -/
def sentStep (documentId : Str) (cid : Str → ℕ → Str → Str)
    (maxTokens overlapTokens : ℕ) (consumedRev : List Str) (st : SState)
    (s : Str) : SState :=
  let st1 :=
    if st.curTokens + estimateTokens s > maxTokens ∧ st.cur ≠ [] then
      closeChunk documentId cid overlapTokens consumedRev st
    else st
  appendSentence st1 s (estimateTokens s)

/-- The sentence loop of `chunkDocument`: `consumedRev` collects the
already-processed sentences in reverse order for the overlap scan. -/
def sentLoop (documentId : Str) (cid : Str → ℕ → Str → Str)
    (maxTokens overlapTokens : ℕ) : List Str → List Str → SState → SState
  | [], _, st => st
  | s :: rest, consumedRev, st =>
    sentLoop documentId cid maxTokens overlapTokens rest (s :: consumedRev)
      (sentStep documentId cid maxTokens overlapTokens consumedRev st s)

/-- The final flush of sentence mode
(`if (currentChunkText.trim()) { chunks.push(...) }`). -/
def flushSentChunk (documentId : Str) (cid : Str → ℕ → Str → Str)
    (textLen : ℤ) (st : SState) : List Chunk :=
  if jsTrim st.cur ≠ [] then
    st.chunks ++
      [{ id := cid documentId st.chunks.length st.cur
         documentId := documentId
         text := jsTrim st.cur
         startOffset := st.startOff
         endOffset := textLen
         chunkIndex := st.chunks.length
         totalChunks := 0 }]
  else st.chunks

/-- State of the word-mode loop of `chunkDocument`. -/
structure WState where
  chunks : List Chunk
  curWords : List Str
  curTokens : ℕ
  startOff : ℤ
  curOff : ℤ
deriving Repr

/-- Closing the current chunk in word mode.  `Math.floor(overlapTokens/1.3)`
is `overlapTokens * 10 / 13` in exact arithmetic (and in IEEE-754 for all
realistic sizes); `Math.max(0, len - overlapWordCount)` is natural
subtraction. -/
def closeWordChunk (documentId : Str) (cid : Str → ℕ → Str → Str)
    (overlapTokens : ℕ) (st : WState) : WState :=
  let chunkText := joinSpace st.curWords
  let overlapWordCount := overlapTokens * 10 / 13
  let startIndex := st.curWords.length - overlapWordCount
  let kept := st.curWords.drop startIndex
  { chunks := st.chunks ++
      [{ id := cid documentId st.chunks.length chunkText
         documentId := documentId
         text := chunkText
         startOffset := st.startOff
         endOffset := st.curOff
         chunkIndex := st.chunks.length
         totalChunks := 0 }]
    curWords := kept
    curTokens := estimateTokens (joinSpace kept)
    startOff := st.curOff - (joinSpace kept).length
    curOff := st.curOff }

/-- One iteration of the word loop of `chunkDocument`. -/
def wordStep (documentId : Str) (cid : Str → ℕ → Str → Str)
    (maxTokens overlapTokens : ℕ) (st : WState) (w : Str) : WState :=
  let st1 :=
    if st.curTokens + estimateTokens w > maxTokens ∧ st.curWords ≠ [] then
      closeWordChunk documentId cid overlapTokens st
    else st
  { st1 with
    curWords := st1.curWords ++ [w]
    curTokens := st1.curTokens + estimateTokens w
    curOff := st1.curOff + w.length + 1 }

/-- The word loop of `chunkDocument`. -/
def wordLoop (documentId : Str) (cid : Str → ℕ → Str → Str)
    (maxTokens overlapTokens : ℕ) : List Str → WState → WState
  | [], st => st
  | w :: rest, st =>
    wordLoop documentId cid maxTokens overlapTokens rest
      (wordStep documentId cid maxTokens overlapTokens st w)

/-- The final flush of word mode. -/
def flushWordChunk (documentId : Str) (cid : Str → ℕ → Str → Str)
    (textLen : ℤ) (st : WState) : List Chunk :=
  if st.curWords ≠ [] then
    st.chunks ++
      [{ id := cid documentId st.chunks.length (joinSpace st.curWords)
         documentId := documentId
         text := joinSpace st.curWords
         startOffset := st.startOff
         endOffset := textLen
         chunkIndex := st.chunks.length
         totalChunks := 0 }]
  else st.chunks

/-- `chunkDocument` from `document-chunker.ts`.  `cid` abstracts
`createChunkId` (a SHA-256-based identifier): it is applied to the same
arguments as the source (`documentId`, `chunks.length`, the untrimmed chunk
buffer).  After building all chunks the `totalChunks` field of every chunk
is backfilled with the final count. -/
def chunkDocument (cid : Str → ℕ → Str → Str) (documentId : Str)
    (text : Str) (opts : ChunkOptions) : List Chunk :=
  if jsTrim text = [] then []
  else
    let chunks :=
      if opts.preserveSentences then
        flushSentChunk documentId cid text.length
          (sentLoop documentId cid opts.maxTokens opts.overlapTokens
            (splitIntoSentences text) [] ⟨[], [], 0, 0⟩)
      else
        flushWordChunk documentId cid text.length
          (wordLoop documentId cid opts.maxTokens opts.overlapTokens
            (jsSplitWS text) ⟨[], [], 0, 0, 0⟩)
    chunks.map (fun c => { c with totalChunks := chunks.length })

/-- JavaScript `str.toLowerCase()` (ASCII model). -/
def toLowerStr (s : Str) : Str :=
  s.map Char.toLower

/-- The dot-product accumulator loop of `cosineSimilarity` in
`ai/embeddings.ts` (`dot += a[i] * b[i]`), over equal-length vectors. -/
def dotL (a b : List ℝ) : ℝ :=
  (a.zip b).foldl (fun acc p => acc + p.1 * p.2) 0

/-- The squared-norm accumulator loop of `cosineSimilarity`
(`normA += a[i] * a[i]`). -/
def normSq (a : List ℝ) : ℝ :=
  a.foldl (fun acc x => acc + x * x) 0

open Classical in
/-- The arithmetic of `cosineSimilarity` after the length check: 0 when a
squared norm is zero, otherwise `dot / (Math.sqrt(normA) * Math.sqrt(normB))`. -/
noncomputable def cosineValue (a b : List ℝ) : ℝ :=
  if normSq a = 0 ∨ normSq b = 0 then 0
  else dotL a b / (Real.sqrt (normSq a) * Real.sqrt (normSq b))

/-- `cosineSimilarity` from `ai/embeddings.ts`: mismatched lengths throw
(the source interpolates the two dimensions into the message; the model
uses the constant prefix of that message). -/
noncomputable def cosineSimilarity (a b : List ℝ) : Except Str ℝ :=
  if a.length ≠ b.length then
    Except.error "Embedding vectors must have the same length.".toList
  else Except.ok (cosineValue a b)

/-- Token lists of `calculateKeywordScore`:
`str.split(/\W+/).filter(t => t.length > 0)`. -/
def wordTokens (s : Str) : List Str :=
  (jsSplitOn (fun c => !isWordChar c) s).filter (fun t => decide (t ≠ []))

/-- `calculateKeywordScore` from `enhanced-search.ts`: constant `10.0` on an
exact lower-cased substring match, otherwise the term-frequency loop
`score += termFrequency / Math.log(textTokens.length + 1)` over the query
tokens present among the text tokens. -/
noncomputable def calculateKeywordScore (query text : Str) : ℝ :=
  let queryLower := toLowerStr query
  let textLower := toLowerStr text
  if queryLower <:+: textLower then 10
  else
    let queryTokens := wordTokens queryLower
    let textTokens := wordTokens textLower
    queryTokens.foldl
      (fun score qToken =>
        if qToken ∈ textTokens then
          score + (textTokens.count qToken : ℝ) / Real.log (textTokens.length + 1)
        else score)
      0

/-- JavaScript `hay.indexOf(needle)`, as `some index` / `none` for `-1`. -/
def jsIndexOfAux (needle : Str) : Str → ℕ → Option ℕ
  | [], i => if needle = [] then some i else none
  | c :: t, i =>
    if needle.isPrefixOf (c :: t) then some i else jsIndexOfAux needle t (i + 1)

/-- JavaScript `hay.indexOf(needle)`. -/
def jsIndexOf (hay needle : Str) : Option ℕ :=
  jsIndexOfAux needle hay 0

/-- JavaScript `str.substring(start, end)` for `0 ≤ start ≤ end`. -/
def jsSubstring (s : Str) (start stop : ℕ) : Str :=
  (s.take stop).drop start

/-- The per-token fallback loop of `highlightKeywords`: return a ±30
character excerpt around the first query token found, then stop. -/
def tokenHighlights (text textLower : Str) : List Str → List Str
  | [] => []
  | token :: rest =>
    match jsIndexOf textLower token with
    | some tokenIndex =>
      let start := tokenIndex - 30
      let stop := min text.length (tokenIndex + token.length + 30)
      let h0 := jsSubstring text start stop
      let h1 := if start > 0 then "...".toList ++ h0 else h0
      let h2 := if stop < text.length then h1 ++ "...".toList else h1
      [h2]
    | none => tokenHighlights text textLower rest

/-- `highlightKeywords` from `enhanced-search.ts`: one excerpt around the
exact query match (±50 characters) when present, otherwise the first ±30
character token excerpt.  `Math.max(0, i - k)` is natural subtraction. -/
def highlightKeywords (query text : Str) : List Str :=
  let queryTokens := wordTokens (toLowerStr query)
  let queryLower := toLowerStr query
  let textLower := toLowerStr text
  match jsIndexOf textLower queryLower with
  | some exactMatchIndex =>
    let start := exactMatchIndex - 50
    let stop := min text.length (exactMatchIndex + queryLower.length + 50)
    let h0 := jsSubstring text start stop
    let h1 := if start > 0 then "...".toList ++ h0 else h0
    let h2 := if stop < text.length then h1 ++ "...".toList else h1
    [h2]
  | none => tokenHighlights text textLower queryTokens

/-- The chunk-metadata bag attached to documents by
`ChunkedDocumentLoader` and read back (as `(doc as any).metadata`) by the
enhanced search. -/
structure ChunkMetadata where
  documentId : Option Str
  chunkIndex : Option ℕ
  totalChunks : Option ℕ
  isChunk : Option Bool
deriving DecidableEq, Repr

/-- A document as seen by the enhanced search: `Doc` from
`DocumentLoader.ts` plus the optional metadata bag.  The entry type of the
embedding vector is a parameter (`ℝ` for scoring, any type for the cache). -/
structure DocM (α : Type) where
  id : Str
  text : Str
  embedding : Option (List α)
  metadata : Option ChunkMetadata
deriving DecidableEq, Repr

/-- `ScoredDoc` from `enhanced-search.ts`. -/
structure ScoredDoc (α : Type) where
  id : Str
  text : Str
  embedding : Option (List α)
  score : α
  highlights : List Str
  metadata : Option ChunkMetadata
deriving DecidableEq, Repr

/-- `SearchConfig` from `enhanced-search.ts` (all fields filled in, as after
the merge with `DEFAULT_CONFIG`). -/
structure SearchConfig where
  maxResults : ℕ
  maxTokensPerChunk : ℕ
  overlapTokens : ℕ
  preserveSentences : Bool
  enableHybridSearch : Bool
  embeddingWeight : ℝ

/-- The combined-score expression of `findRelevantDocsEnhanced`. -/
noncomputable def combineScores (cfg : SearchConfig)
    (embeddingScore keywordScore : ℝ) : ℝ :=
  if cfg.enableHybridSearch then
    embeddingScore * cfg.embeddingWeight + keywordScore * (1 - cfg.embeddingWeight)
  else embeddingScore

/-- The per-document scoring body of `findRelevantDocsEnhanced` (the
`documents.map` callback): embedding similarity when an embedding is
present (a length mismatch inside `cosineSimilarity` throws out of the whole
call, hence `Except`), keyword score and highlights only under hybrid
search, and the combined score. -/
noncomputable def scoreDocEnhanced (query : Str) (queryEmbedding : List ℝ)
    (cfg : SearchConfig) (doc : DocM ℝ) : Except Str (ScoredDoc ℝ) :=
  (match doc.embedding with
   | some e => cosineSimilarity e queryEmbedding
   | none => Except.ok 0).map
    (fun embeddingScore =>
      let keywordScore :=
        if cfg.enableHybridSearch then calculateKeywordScore query doc.text else 0
      let highlights :=
        if cfg.enableHybridSearch then highlightKeywords query doc.text else []
      { id := doc.id
        text := doc.text
        embedding := doc.embedding
        score := combineScores cfg embeddingScore keywordScore
        highlights := highlights
        metadata := doc.metadata })

/-- The embedding-similarity component of the combined score, as a total
function (used to state what `scoreDocEnhanced` computes when it does not
throw). -/
noncomputable def embeddingScoreVal (doc : DocM ℝ) (queryEmbedding : List ℝ) : ℝ :=
  match doc.embedding with
  | some e => cosineValue e queryEmbedding
  | none => 0

/-- `Math.ceil(maxResults / 2)` from `applyResultDiversification`. -/
def ceilHalf (maxResults : ℕ) : ℕ :=
  (maxResults + 1) / 2

/-- `doc.metadata?.documentId || doc.id`: JavaScript `||` falls back on the
empty string as well as on a missing field. -/
def effectiveDocId {α : Type} (d : ScoredDoc α) : Str :=
  match d.metadata with
  | some m =>
    match m.documentId with
    | some s => if s = [] then d.id else s
    | none => d.id
  | none => d.id

/-- `documentCounts.get(docId) || 0` over the association-list model of the
`Map`. -/
def countFor (counts : List (Str × ℕ)) (k : Str) : ℕ :=
  ((counts.find? (fun p => p.1 = k)).map (fun p => p.2)).getD 0

/-- The first (capped, greedy) loop of `applyResultDiversification`:
admit a document only while its source document count is below the cap,
and stop once `maxResults` results are admitted. -/
def diversifyPass1 {α : Type} (maxResults cap : ℕ) :
    List (ScoredDoc α) → List (ScoredDoc α) → List (Str × ℕ) → List (ScoredDoc α)
  | [], results, _ => results
  | d :: rest, results, counts =>
    let docId := effectiveDocId d
    let currentCount := countFor counts docId
    if currentCount < cap then
      if maxResults ≤ (results ++ [d]).length then results ++ [d]
      else
        diversifyPass1 maxResults cap rest (results ++ [d])
          ((docId, currentCount + 1) :: counts)
    else diversifyPass1 maxResults cap rest results counts

/-- The backfill loop of `applyResultDiversification`: add the
highest-scoring not-yet-admitted documents (`!results.includes(doc)`),
ignoring the per-document cap, until `maxResults` is reached. -/
def diversifyPass2 {α : Type} [DecidableEq α] (maxResults : ℕ) :
    List (ScoredDoc α) → List (ScoredDoc α) → List (ScoredDoc α)
  | [], results => results
  | d :: rest, results =>
    if d ∈ results then diversifyPass2 maxResults rest results
    else if maxResults ≤ (results ++ [d]).length then results ++ [d]
    else diversifyPass2 maxResults rest (results ++ [d])

/-- `applyResultDiversification` from `enhanced-search.ts`: the capped
greedy pass, then — only if it fell short of `maxResults` — the backfill
pass over the whole pool. -/
def applyResultDiversification {α : Type} [DecidableEq α]
    (scoredDocs : List (ScoredDoc α)) (maxResults : ℕ) : List (ScoredDoc α) :=
  let results := diversifyPass1 maxResults (ceilHalf maxResults) scoredDocs [] []
  if results.length < maxResults then diversifyPass2 maxResults scoredDocs results
  else results

/-- The `cacheKey` integrity triple stored inside a cache file
(`embedding-cache.ts`, `EmbeddingCacheAI`). -/
structure CacheKey where
  contentHash : Str
  model : Str
  provider : Str
deriving DecidableEq, Repr

/-- `CachedEmbedding` as persisted by `EmbeddingCacheAI`. -/
structure CachedEmbedding (α : Type) where
  contentHash : Str
  text : Str
  embedding : List α
  createdAt : Str
  model : Str
  provider : Str
  cacheKey : CacheKey
deriving DecidableEq, Repr

/-- The cache directory tree, modelled as an association list from the path
triple `(provider, safeModelName model, contentHash)` to the parsed content
of the file at that path; a stored `none` models a file whose content fails
`JSON.parse`, an absent key models a missing file. -/
abbrev CacheFS (α : Type) := List ((Str × Str × Str) × Option (CachedEmbedding α))

/-- `safeModelName`: replace characters outside `[a-zA-Z0-9._-]` with `-`…  -/
def safeCharKeep (c : Char) : Bool :=
  ('a' ≤ c && c ≤ 'z') || ('A' ≤ c && c ≤ 'Z') || ('0' ≤ c && c ≤ '9') ||
    c = '.' || c = '_' || c = '-'

/-- …then collapse each maximal run of hyphens to a single hyphen (the
global replacement of regexp `--+` by `-`; a run of length one is left as
is, which the collapse also produces). -/
def collapseHyphens : Str → Bool → Str
  | [], _ => []
  | c :: cs, inRun =>
    if c = '-' then
      if inRun then collapseHyphens cs true
      else '-' :: collapseHyphens cs true
    else c :: collapseHyphens cs false

/-- `safeModelName` from `EmbeddingCacheAI`. -/
def safeModelName (model : Str) : Str :=
  collapseHyphens (model.map (fun c => if safeCharKeep c then c else '-')) false

/-- `getCacheFilePath`: the path triple of a cache entry. -/
def cachePathKey (provider model contentHash : Str) : Str × Str × Str :=
  (provider, safeModelName model, contentHash)

/-- Reading the file at a path: `none` = missing file,
`some none` = unparsable file, `some (some c)` = parsed `CachedEmbedding`. -/
def readCacheFile {α : Type} (fs : CacheFS α) (k : Str × Str × Str) :
    Option (Option (CachedEmbedding α)) :=
  (fs.find? (fun e => e.1 = k)).map (fun e => e.2)

/-- `EmbeddingCacheAI.loadCachedEmbedding`: read the file at the
content-addressed path; a missing file or a parse failure is `none` (the
`catch` branch), and a parsed entry is accepted only if its stored
`cacheKey` triple matches the lookup exactly. -/
def loadCachedEmbedding {α : Type} (fs : CacheFS α)
    (contentHash provider model : Str) : Option (CachedEmbedding α) :=
  match readCacheFile fs (cachePathKey provider model contentHash) with
  | none => none
  | some none => none
  | some (some cached) =>
    if cached.cacheKey.contentHash = contentHash ∧
        cached.cacheKey.model = model ∧ cached.cacheKey.provider = provider then
      some cached
    else none

/-- `EmbeddingCacheAI.saveCachedEmbedding`: throws when the document has no
embedding, otherwise writes the entry (with its integrity triple) at the
content-addressed path.  `hash` abstracts `hashContent` (SHA-256), `now`
the `createdAt` timestamp; a write shadows any previous entry at the same
path. -/
def saveCachedEmbedding {α : Type} (hash : Str → Str) (fs : CacheFS α)
    (doc : DocM α) (model provider now : Str) : Except Str (CacheFS α) :=
  match doc.embedding with
  | none => Except.error "Document has no embedding to cache".toList
  | some emb =>
    Except.ok
      ((cachePathKey provider model (hash doc.text),
        some
          { contentHash := hash doc.text
            text := doc.text
            embedding := emb
            createdAt := now
            model := model
            provider := provider
            cacheKey :=
              { contentHash := hash doc.text, model := model, provider := provider } }) :: fs)

/-- `EmbeddingCacheAI.loadCachedEmbeddings`: for every document without an
embedding, look up its content hash and accept the entry only if its stored
text also matches; returns the updated documents and the number loaded.
`provider`/`model` stand for `getAIConfig()`'s embedding settings. -/
def loadCachedEmbeddings {α : Type} [DecidableEq α] (hash : Str → Str)
    (fs : CacheFS α) (provider model : Str) :
    List (DocM α) → List (DocM α) × ℕ
  | [] => ([], 0)
  | doc :: rest =>
    let r := loadCachedEmbeddings hash fs provider model rest
    if doc.embedding.isSome then (doc :: r.1, r.2)
    else
      match loadCachedEmbedding fs (hash doc.text) provider model with
      | some cached =>
        if cached.text = doc.text then
          ({ doc with embedding := some cached.embedding } :: r.1, r.2 + 1)
        else (doc :: r.1, r.2)
      | none => (doc :: r.1, r.2)

/-- `recommendation` values of `ValidationResult`
(`features/response-validation.ts`). -/
inductive Recommend where
  | accept
  | flag
  | reject
deriving DecidableEq, Repr

/-- `ValidationResult` from `features/response-validation.ts`. -/
structure ValidationResult where
  isGrounded : Bool
  confidence : ℚ
  concerns : List Str
  recommendation : Recommend
deriving DecidableEq, Repr

/-- The fields `validateResponse` reads off the JSON object parsed from the
LLM's reply (`concerns` may be absent: `validation.concerns || []`). -/
structure LLMJudgment where
  isGrounded : Bool
  confidence : ℚ
  concerns : Option (List Str)
  recommendation : Recommend
deriving DecidableEq, Repr

/-- `validateResponse` from `features/response-validation.ts`, abstracted
over the LLM call: `parsed = some v` models a completion whose JSON parse
succeeded with fields `v`; `parsed = none` models a JSON parse failure or
any other exception in the `try` block, which lands in the conservative
`catch` branch. -/
def validateResponse (parsed : Option LLMJudgment) : ValidationResult :=
  match parsed with
  | some v =>
    { isGrounded := v.isGrounded
      confidence := v.confidence
      concerns := v.concerns.getD []
      recommendation := v.recommendation }
  | none =>
    { isGrounded := false
      confidence := 0
      concerns := ["Validation failed due to technical error".toList]
      recommendation := Recommend.flag }

/-- The attribution regexp test of `validateResponseWithAttribution`:
`/source:|from:|according to|as stated in|document/i.test(response)`. -/
def attributionTest (response : Str) : Bool :=
  let r := toLowerStr response
  decide ("source:".toList <:+: r) || decide ("from:".toList <:+: r) ||
    decide ("according to".toList <:+: r) ||
    decide ("as stated in".toList <:+: r) || decide ("document".toList <:+: r)

/-- `ValidationResult & { hasSourceAttribution: boolean }`. -/
structure ValidationResultA extends ValidationResult where
  hasSourceAttribution : Bool
deriving DecidableEq, Repr

/-- `validateResponseWithAttribution` from
`features/response-validation.ts`, with the base validation's LLM call
abstracted as in `validateResponse`: when the base validation judged the
answer grounded but no attribution phrasing is present, the recommendation
becomes `flag` and a concern is appended. -/
def validateResponseWithAttribution (parsed : Option LLMJudgment)
    (response : Str) : ValidationResultA :=
  let baseValidation := validateResponse parsed
  let hasSourceAttribution := attributionTest response
  if baseValidation.isGrounded ∧ hasSourceAttribution = false then
    { isGrounded := baseValidation.isGrounded
      confidence := baseValidation.confidence
      concerns := baseValidation.concerns ++ ["Response lacks source attribution".toList]
      recommendation := Recommend.flag
      hasSourceAttribution := hasSourceAttribution }
  else
    { isGrounded := baseValidation.isGrounded
      confidence := baseValidation.confidence
      concerns := baseValidation.concerns
      recommendation := baseValidation.recommendation
      hasSourceAttribution := hasSourceAttribution }

/-- A dummy chunk-id function standing in for `createChunkId` in concrete
evaluations (the claims never inspect chunk ids). -/
def cid0 : Str → ℕ → Str → Str := fun _ _ _ => []

/-- Concrete diversification pool: chunk 1 of document A (top score). -/
def docA1 : ScoredDoc ℚ :=
  { id := "a1".toList, text := "alpha one".toList, embedding := none, score := 9,
    highlights := [], metadata := some ⟨some "A".toList, some 0, some 3, some true⟩ }

/-- Concrete diversification pool: chunk 2 of document A. -/
def docA2 : ScoredDoc ℚ :=
  { id := "a2".toList, text := "alpha two".toList, embedding := none, score := 8,
    highlights := [], metadata := some ⟨some "A".toList, some 1, some 3, some true⟩ }

/-- Concrete diversification pool: chunk 3 of document A. -/
def docA3 : ScoredDoc ℚ :=
  { id := "a3".toList, text := "alpha three".toList, embedding := none, score := 7,
    highlights := [], metadata := some ⟨some "A".toList, some 2, some 3, some true⟩ }

/-- Concrete diversification pool: the single chunk of document B. -/
def docB1 : ScoredDoc ℚ :=
  { id := "b1".toList, text := "beta one".toList, embedding := none, score := 6,
    highlights := [], metadata := some ⟨some "B".toList, some 0, some 1, some true⟩ }

/-- The pool of the diversification scenario of the specification:
`maxResults = 4`, three top-scoring chunks from document A and one from
document B, pre-sorted descending by score. -/
def pool4 : List (ScoredDoc ℚ) := [docA1, docA2, docA3, docB1]

/-- Hybrid search configuration used in concrete scoring evaluations. -/
noncomputable def cfgW : SearchConfig :=
  { maxResults := 2, maxTokensPerChunk := 500, overlapTokens := 100,
    preserveSentences := true, enableHybridSearch := true, embeddingWeight := (7 : ℝ) / 10 }

/-- A document without an embedding, used in concrete scoring evaluations. -/
def docW : DocM ℝ :=
  { id := "w".toList, text := [], embedding := none, metadata := none }

/-- The scored document produced for `docW` by an empty query under `cfgW`
(kept definitionally equal to the `scoreDocEnhanced` result). -/
noncomputable def sdW : ScoredDoc ℝ :=
  { id := docW.id
    text := docW.text
    embedding := docW.embedding
    score := combineScores cfgW 0
      (if cfgW.enableHybridSearch then calculateKeywordScore [] docW.text else 0)
    highlights := if cfgW.enableHybridSearch then highlightKeywords [] docW.text else []
    metadata := docW.metadata }

/-- Dense-index invariant: the chunk indices of an accumulated chunk list
are exactly `0 .. length-1`. -/
def IdxOk (l : List Chunk) : Prop :=
  l.map (fun c => c.chunkIndex) = List.range l.length

/-- `Chunk`s share a sentence of `text` when some non-blank sentence of the
text occurs (trimmed) inside both chunk texts. -/
def SharesSentence (text : Str) (c c2 : Chunk) : Prop :=
  ∃ s ∈ splitIntoSentences text,
    jsTrim s ≠ [] ∧ jsTrim s <:+: c.text ∧ jsTrim s <:+: c2.text

instance (text : Str) (c c2 : Chunk) : Decidable (SharesSentence text c c2) :=
  decidable_of_iff
    (∃ s ∈ splitIntoSentences text,
      jsTrim s ≠ [] ∧ jsTrim s <:+: c.text ∧ jsTrim s <:+: c2.text) Iff.rfl

/-- Invariant of the sentence loop for the overlap property: the closed
chunks pairwise share sentences in order; the last closed chunk shares a
sentence with the current buffer; and a non-empty buffer ends with the most
recently consumed sentence. -/
def SentInv (text : Str) (consumedRev : List Str) (st : SState) : Prop :=
  List.Chain' (SharesSentence text) st.chunks ∧
  (∀ c, st.chunks.getLast? = some c →
    ∃ s ∈ splitIntoSentences text,
      jsTrim s ≠ [] ∧ jsTrim s <:+: c.text ∧ jsTrim s <:+: st.cur) ∧
  (st.cur ≠ [] → ∃ s rest2, consumedRev = s :: rest2 ∧
    s ∈ splitIntoSentences text ∧ jsTrim s <:+: st.cur)

/-- `List.foldl` of a pure accumulation is the sum of the mapped list. -/
theorem foldl_add_eq_sum {β : Type} (g : β → ℝ) :
    ∀ (l : List β) (init : ℝ), l.foldl (fun acc x => acc + g x) init = init + (l.map g).sum
  | [], init => by simp
  | b :: t, init => by
    rw [List.foldl_cons, foldl_add_eq_sum g t (init + g b)]
    simp [add_assoc]

/-- C7: a JSON parse failure or any exception while validating makes
`validateResponse` return the conservative outcome — not grounded,
confidence 0, a single validation-failure concern and recommendation
`flag`; in particular the recommendation is never `accept`. -/
theorem c7_validation_failure_is_conservative :
    validateResponse none =
      { isGrounded := false, confidence := 0,
        concerns := ["Validation failed due to technical error".toList],
        recommendation := Recommend.flag } ∧
    (validateResponse none).recommendation ≠ Recommend.accept := by
  exact ⟨rfl, by decide⟩

/-- `⌈13n/10⌉` over the rationals equals the natural-number computation
`(13n + 9) / 10` used by the embedded `estimateTokens`. -/
theorem ceil_13_10 (n : ℕ) :
    ⌈((n : ℚ) * (13 / 10))⌉ = (((13 * n + 9) / 10 : ℕ) : ℤ) := by
  have h1 : 13 * n ≤ 10 * ((13 * n + 9) / 10) := by omega
  have h2 : 10 * ((13 * n + 9) / 10) ≤ 13 * n + 9 := by omega
  generalize hm : (13 * n + 9) / 10 = m at h1 h2 ⊢
  have h1q : (13 : ℚ) * n ≤ 10 * m := by exact_mod_cast h1
  have h2q : (10 : ℚ) * m ≤ 13 * n + 9 := by exact_mod_cast h2
  have hq : (n : ℚ) * (13 / 10) = 13 * (n : ℚ) / 10 := by ring
  rw [Int.ceil_eq_iff]
  constructor
  · push_cast
    rw [hq, lt_div_iff₀ (by norm_num : (0 : ℚ) < 10)]
    linarith
  · push_cast
    rw [hq, div_le_iff₀ (by norm_num : (0 : ℚ) < 10)]
    linarith

/-- C8: the token estimate is `ceil(wordCount * 1.3)` with `wordCount`
splitting on whitespace runs and dropping empty tokens; `tokens("") = 0`,
`tokens("a b c") = 4`; and `shouldChunk(text, maxTokens)` holds exactly when
the estimate exceeds `maxTokens * 1.5`. -/
theorem c8_token_estimate_and_threshold :
    (∀ s : Str, (estimateTokens s : ℤ) = ⌈(((jsWords s).length : ℚ) * (13 / 10))⌉) ∧
    estimateTokens "".toList = 0 ∧
    estimateTokens "a b c".toList = 4 ∧
    (∀ (text : Str) (maxTokens : ℕ),
      shouldChunk text maxTokens = true ↔
        (estimateTokens text : ℚ) > (maxTokens : ℚ) * 3 / 2) := by
  refine ⟨fun s => ?_, by decide, by decide, fun text maxTokens => ?_⟩
  · rw [ceil_13_10, estimateTokens]
  · simp [shouldChunk]

/-- C9: when the base validation judged the answer grounded but the answer
has no attribution phrasing, the attribution-checking validator flags it,
appends the lacks-attribution concern and reports no source attribution;
when attribution phrasing is present the base recommendation and concerns
pass through unchanged. -/
theorem c9_attribution_downgrade :
    ∀ (parsed : Option LLMJudgment) (response : Str),
      ((validateResponse parsed).isGrounded = true → attributionTest response = false →
        (validateResponseWithAttribution parsed response).recommendation = Recommend.flag ∧
        (validateResponseWithAttribution parsed response).hasSourceAttribution = false ∧
        (validateResponseWithAttribution parsed response).concerns =
          (validateResponse parsed).concerns ++
            ["Response lacks source attribution".toList]) ∧
      (attributionTest response = true →
        (validateResponseWithAttribution parsed response).recommendation =
          (validateResponse parsed).recommendation ∧
        (validateResponseWithAttribution parsed response).hasSourceAttribution = true ∧
        (validateResponseWithAttribution parsed response).concerns =
          (validateResponse parsed).concerns) := by
  intro parsed response
  constructor
  · intro hg ha
    simp [validateResponseWithAttribution, hg, ha]
  · intro ha
    simp [validateResponseWithAttribution, ha]

/-- C9 witness: a grounded judgment whose answer lacks attribution phrasing
is downgraded to `flag` at a concrete input. -/
theorem c9_attribution_downgrade_witness :
    (validateResponse (some ⟨true, 1, none, Recommend.accept⟩)).isGrounded = true ∧
    attributionTest "the answer is yellow".toList = false ∧
    (validateResponseWithAttribution (some ⟨true, 1, none, Recommend.accept⟩)
      "the answer is yellow".toList).recommendation = Recommend.flag :=
  ⟨by decide, by decide,
    ((c9_attribution_downgrade (some ⟨true, 1, none, Recommend.accept⟩)
      "the answer is yellow".toList).1 (by decide) (by decide)).1⟩

/-- Updating the counts map: looking up the written key. -/
theorem countFor_cons_self (counts : List (Str × ℕ)) (k : Str) (v : ℕ) :
    countFor ((k, v) :: counts) k = v := by
  rw [countFor, List.find?_cons_of_pos _ (by simp)]
  rfl

/-- Updating the counts map: looking up a different key. -/
theorem countFor_cons_ne (counts : List (Str × ℕ)) (k k2 : Str) (v : ℕ)
    (h : k ≠ k2) : countFor ((k, v) :: counts) k2 = countFor counts k2 := by
  rw [countFor, List.find?_cons_of_neg _ (by simp [h]), countFor]

/-- Invariant of the capped greedy pass: if the counts map agrees with the
admitted results and respects the cap, then for any source document id the
final admission count still respects the cap. -/
theorem pass1_cap {α : Type} (maxResults cap : ℕ) (d : Str) :
    ∀ (pool results : List (ScoredDoc α)) (counts : List (Str × ℕ)),
      (∀ k, results.countP (fun c => decide (effectiveDocId c = k)) = countFor counts k) →
      (∀ k, countFor counts k ≤ cap) →
      (diversifyPass1 maxResults cap pool results counts).countP
        (fun c => decide (effectiveDocId c = d)) ≤ cap
  | [], results, counts, hagree, hcap => by
    rw [diversifyPass1, hagree d]
    exact hcap d
  | d0 :: rest, results, counts, hagree, hcap => by
    rw [diversifyPass1]
    by_cases hlt : countFor counts (effectiveDocId d0) < cap
    · rw [if_pos hlt]
      have hpush : ∀ k,
          (results ++ [d0]).countP (fun c => decide (effectiveDocId c = k)) =
            countFor ((effectiveDocId d0, countFor counts (effectiveDocId d0) + 1) :: counts) k := by
        intro k
        rw [List.countP_append]
        by_cases hk : effectiveDocId d0 = k
        · subst hk
          rw [countFor_cons_self, hagree (effectiveDocId d0)]
          simp
        · rw [countFor_cons_ne _ _ _ _ hk, ← hagree k]
          simp [List.countP_cons, hk]
      have hcap2 : ∀ k,
          countFor ((effectiveDocId d0, countFor counts (effectiveDocId d0) + 1) :: counts) k ≤ cap := by
        intro k
        by_cases hk : effectiveDocId d0 = k
        · subst hk
          rw [countFor_cons_self]
          omega
        · rw [countFor_cons_ne _ _ _ _ hk]
          exact hcap k
      by_cases hfull : maxResults ≤ (results ++ [d0]).length
      · rw [if_pos hfull, hpush d]
        exact hcap2 d
      · rw [if_neg hfull]
        exact pass1_cap maxResults cap d rest (results ++ [d0]) _ hpush hcap2
    · rw [if_neg hlt]
      exact pass1_cap maxResults cap d rest results counts hagree hcap

/-- C1 (amended): the greedy pass of the diversifier admits at most
`ceil(maxResults / 2)` results per source document id; on the scenario pool
(`maxResults = 4`, three top-scoring chunks from document A plus one from
document B) the greedy pass admits two A-chunks and the B-chunk, and the
backfill — which ignores the cap — adds the third A-chunk, so the result is
`[A1, A2, B1, A3]`: it includes the chunk from B but contains three chunks
from A. -/
theorem c1_diversification_amended :
    (∀ (α : Type) (pool : List (ScoredDoc α)) (maxResults : ℕ) (d : Str),
      (diversifyPass1 maxResults (ceilHalf maxResults) pool [] []).countP
        (fun c => decide (effectiveDocId c = d)) ≤ ceilHalf maxResults) ∧
    applyResultDiversification pool4 4 = [docA1, docA2, docB1, docA3] ∧
    docB1 ∈ applyResultDiversification pool4 4 ∧
    (applyResultDiversification pool4 4).countP
      (fun c => decide (effectiveDocId c = "A".toList)) = 3 := by
  refine ⟨fun α pool maxResults d => ?_, by decide, by decide, by decide⟩
  exact pass1_cap maxResults (ceilHalf maxResults) d pool [] []
    (fun k => by simp [countFor]) (fun k => by simp [countFor])

/-- C1 counterexample: on the scenario pool the claimed bound — at most
`ceil(4/2) = 2` chunks from document A in the final result set — fails: the
backfill pass ignores the per-document cap and admits a third A-chunk. -/
theorem c1_diversification_counterexample :
    ¬ ((applyResultDiversification pool4 4).countP
        (fun c => decide (effectiveDocId c = "A".toList)) ≤ ceilHalf 4) := by
  decide

/-- C2: storing a vector and then loading the cached embeddings for the
same text under the same provider and model yields the stored vector
unchanged; a load accepts an entry only if the stored `cacheKey` triple
matches the lookup exactly, and a missing or unparsable file is a cache
miss (`none`), never an error; an entry stored under the old content hash
is never returned for a text with a different hash. -/
theorem c2_cache_round_trip :
    (∀ (α : Type) [DecidableEq α] (hash : Str → Str) (fs fs2 : CacheFS α)
        (doc doc2 : DocM α) (emb : List α) (model provider now : Str),
      doc.embedding = some emb →
      saveCachedEmbedding hash fs doc model provider now = Except.ok fs2 →
      doc2.text = doc.text → doc2.embedding = none →
      loadCachedEmbeddings hash fs2 provider model [doc2] =
        ([{ doc2 with embedding := some emb }], 1)) ∧
    (∀ (α : Type) (fs : CacheFS α) (h p m : Str) (c : CachedEmbedding α),
      loadCachedEmbedding fs h p m = some c →
      c.cacheKey.contentHash = h ∧ c.cacheKey.model = m ∧ c.cacheKey.provider = p) ∧
    (∀ (α : Type) (fs : CacheFS α) (h p m : Str),
      readCacheFile fs (cachePathKey p m h) = none →
      loadCachedEmbedding fs h p m = none) ∧
    (∀ (α : Type) (fs : CacheFS α) (h p m : Str),
      readCacheFile fs (cachePathKey p m h) = some none →
      loadCachedEmbedding fs h p m = none) ∧
    (∀ (α : Type) (hash : Str → Str) (doc : DocM α) (emb : List α)
        (model provider now : Str) (fs2 : CacheFS α),
      doc.embedding = some emb →
      saveCachedEmbedding hash ([] : CacheFS α) doc model provider now = Except.ok fs2 →
      ∀ newText : Str, hash newText ≠ hash doc.text →
        loadCachedEmbedding fs2 (hash newText) provider model = none) := by
  refine ⟨?_, ?_, ?_, ?_, ?_⟩
  · intro α _ hash fs fs2 doc doc2 emb model provider now hemb hsave htext hnone
    rw [saveCachedEmbedding, hemb] at hsave
    injection hsave with hfs2
    subst hfs2
    rw [loadCachedEmbeddings, loadCachedEmbeddings]
    rw [hnone]
    simp only [Option.isSome_none, Bool.false_eq_true, if_false]
    rw [htext]
    rw [loadCachedEmbedding, readCacheFile, List.find?_cons_of_pos _ (by simp)]
    simp [htext]
  · intro α fs h p m c hload
    rw [loadCachedEmbedding] at hload
    split at hload
    · exact absurd hload (by simp)
    · exact absurd hload (by simp)
    · split at hload
      · rename_i cached hmatch
        injection hload with hc
        subst hc
        exact hmatch
      · exact absurd hload (by simp)
  · intro α fs h p m hread
    rw [loadCachedEmbedding, hread]
  · intro α fs h p m hread
    rw [loadCachedEmbedding, hread]
  · intro α hash doc emb model provider now fs2 hemb hsave newText hne
    rw [saveCachedEmbedding, hemb] at hsave
    injection hsave with hfs2
    subst hfs2
    rw [loadCachedEmbedding, readCacheFile, List.find?_cons_of_neg _ (by
      simp [cachePathKey, Prod.ext_iff]
      intro heq
      exact hne heq.symm)]
    rfl

/-- C2 witness: a concrete round trip through the cache model, with the
stale-hash, missing-file and unparsable-file misses checked at concrete
inputs. -/
theorem c2_cache_round_trip_witness :
    loadCachedEmbeddings (fun s => s)
      ((cachePathKey "p".toList "m".toList "t".toList,
        some
          { contentHash := "t".toList, text := "t".toList, embedding := [(1 : ℚ), 2],
            createdAt := "now".toList, model := "m".toList, provider := "p".toList,
            cacheKey := { contentHash := "t".toList, model := "m".toList,
                          provider := "p".toList } }) :: [])
      "p".toList "m".toList
      [{ id := "d".toList, text := "t".toList, embedding := none, metadata := none }] =
      ([{ id := "d".toList, text := "t".toList, embedding := some [(1 : ℚ), 2],
          metadata := none }], 1) ∧
    loadCachedEmbedding
      ((cachePathKey "p".toList "m".toList "t".toList,
        some
          { contentHash := "t".toList, text := "t".toList, embedding := [(1 : ℚ), 2],
            createdAt := "now".toList, model := "m".toList, provider := "p".toList,
            cacheKey := { contentHash := "t".toList, model := "m".toList,
                          provider := "p".toList } }) :: [])
      "u".toList "p".toList "m".toList = none ∧
    loadCachedEmbedding ([] : CacheFS ℚ) "t".toList "p".toList "m".toList = none := by
  refine ⟨?_, ?_, ?_⟩
  · exact c2_cache_round_trip.1 ℚ (fun s => s) []
      _ { id := "d0".toList, text := "t".toList, embedding := some [(1 : ℚ), 2],
          metadata := none }
      { id := "d".toList, text := "t".toList, embedding := none, metadata := none }
      [(1 : ℚ), 2] "m".toList "p".toList "now".toList rfl rfl rfl rfl
  · exact c2_cache_round_trip.2.2.2.2 ℚ (fun s => s)
      { id := "d0".toList, text := "t".toList, embedding := some [(1 : ℚ), 2],
        metadata := none }
      [(1 : ℚ), 2] "m".toList "p".toList "now".toList _ rfl rfl "u".toList (by decide)
  · exact c2_cache_round_trip.2.2.1 ℚ [] "t".toList "p".toList "m".toList rfl

/-- Zipping a list with itself pairs each element with itself. -/
theorem zip_self_eq_map (a : List ℝ) : a.zip a = a.map (fun x => (x, x)) := by
  induction a with
  | nil => rfl
  | cons x t ih => simp [List.zip_cons_cons, ih]

/-- The squared-norm accumulator is the sum of squares. -/
theorem normSq_eq_sum (a : List ℝ) : normSq a = (a.map (fun x => x * x)).sum := by
  rw [normSq, foldl_add_eq_sum]
  ring

/-- The dot-product accumulator of a vector with itself is its squared
norm. -/
theorem dotL_self (a : List ℝ) : dotL a a = normSq a := by
  rw [dotL, normSq, foldl_add_eq_sum, foldl_add_eq_sum, zip_self_eq_map,
    List.map_map]
  rfl

/-- The squared norm is nonnegative. -/
theorem normSq_nonneg (a : List ℝ) : 0 ≤ normSq a := by
  rw [normSq_eq_sum]
  exact List.sum_nonneg (fun x hx => by
    obtain ⟨y, _, rfl⟩ := List.mem_map.mp hx
    exact mul_self_nonneg y)

/-- A vector with a non-zero entry has positive squared norm. -/
theorem normSq_pos (a : List ℝ) (x : ℝ) (hx : x ∈ a) (hx0 : x ≠ 0) :
    0 < normSq a := by
  obtain ⟨s, t, rfl⟩ := List.append_of_mem hx
  rw [normSq_eq_sum]
  have hs : 0 ≤ ((s.map (fun y => y * y)).sum) := by
    exact List.sum_nonneg (fun y hy => by
      obtain ⟨z, _, rfl⟩ := List.mem_map.mp hy
      exact mul_self_nonneg z)
  have ht : 0 ≤ ((t.map (fun y => y * y)).sum) := by
    exact List.sum_nonneg (fun y hy => by
      obtain ⟨z, _, rfl⟩ := List.mem_map.mp hy
      exact mul_self_nonneg z)
  have hxx : 0 < x * x := mul_self_pos.mpr hx0
  simp only [List.map_append, List.sum_append, List.map_cons, List.sum_cons]
  linarith

/-- C6: `cosineSimilarity` errors exactly on mismatched lengths; on
equal-length vectors it returns the guarded quotient — exactly 0 when either
squared norm is zero, `dot/(‖a‖·‖b‖)` otherwise — and on any vector with a
non-zero entry `cosineSimilarity a a` is exactly 1 in the real-number model
(the "≈ 1" of the specification, without floating-point error). -/
theorem c6_cosine_similarity :
    (∀ a b : List ℝ, (∃ e, cosineSimilarity a b = Except.error e) ↔ a.length ≠ b.length) ∧
    (∀ a b : List ℝ, a.length = b.length → (normSq a = 0 ∨ normSq b = 0) →
      cosineSimilarity a b = Except.ok 0) ∧
    (∀ a b : List ℝ, a.length = b.length → normSq a ≠ 0 → normSq b ≠ 0 →
      cosineSimilarity a b =
        Except.ok (dotL a b / (Real.sqrt (normSq a) * Real.sqrt (normSq b)))) ∧
    (∀ a : List ℝ, (∃ x ∈ a, x ≠ 0) → cosineSimilarity a a = Except.ok 1) := by
  refine ⟨fun a b => ?_, fun a b hlen hz => ?_, fun a b hlen ha hb => ?_,
    fun a ⟨x, hx, hx0⟩ => ?_⟩
  · constructor
    · rintro ⟨e, he⟩
      by_contra hleneq
      rw [cosineSimilarity, if_neg (not_ne_iff.mpr hleneq)] at he
      exact absurd he (by simp)
    · intro hne
      exact ⟨_, by rw [cosineSimilarity, if_pos hne]⟩
  · rw [cosineSimilarity, if_neg (by omega), cosineValue, if_pos hz]
  · rw [cosineSimilarity, if_neg (by omega), cosineValue,
      if_neg (by rintro (h | h) <;> [exact ha h; exact hb h])]
  · have hpos : 0 < normSq a := normSq_pos a x hx hx0
    rw [cosineSimilarity, if_neg (by omega), cosineValue,
      if_neg (by rintro (h | h) <;> exact absurd h (ne_of_gt hpos)),
      dotL_self, Real.mul_self_sqrt (le_of_lt hpos),
      div_self (ne_of_gt hpos)]

/-- C6 witness: the concrete vector `[1]` — equal lengths, zero-norm guard
not taken, self-similarity exactly 1. -/
theorem c6_cosine_similarity_witness :
    ((1 : ℝ) ∈ [(1 : ℝ)] ∧ (1 : ℝ) ≠ 0) ∧
    cosineSimilarity [(1 : ℝ)] [(1 : ℝ)] = Except.ok 1 :=
  ⟨⟨by simp, one_ne_zero⟩,
    c6_cosine_similarity.2.2.2 [(1 : ℝ)] ⟨1, by simp, one_ne_zero⟩⟩

/-- Exact-phrase branch of `calculateKeywordScore`: a lower-cased substring
match returns the constant 10. -/
theorem keywordScore_exact (query text : Str)
    (h : toLowerStr query <:+: toLowerStr text) :
    calculateKeywordScore query text = 10 := by
  rw [calculateKeywordScore]
  simp only [if_pos h]

/-- Token branch of `calculateKeywordScore`: without a substring match the
accumulator loop computes the sum, over the query tokens, of
`termFrequency / ln(textTokenCount + 1)` for tokens present in the text. -/
theorem keywordScore_sum (query text : Str)
    (h : ¬ toLowerStr query <:+: toLowerStr text) :
    calculateKeywordScore query text =
      ((wordTokens (toLowerStr query)).map (fun qToken =>
        if qToken ∈ wordTokens (toLowerStr text) then
          (((wordTokens (toLowerStr text)).count qToken : ℝ) /
            Real.log ((wordTokens (toLowerStr text)).length + 1))
        else 0)).sum := by
  rw [calculateKeywordScore]
  simp only [if_neg h]
  have hfun :
      (fun (score : ℝ) (qToken : Str) =>
        if qToken ∈ wordTokens (toLowerStr text) then
          score + (((wordTokens (toLowerStr text)).count qToken : ℝ) /
            Real.log ((wordTokens (toLowerStr text)).length + 1))
        else score) =
      (fun (score : ℝ) (qToken : Str) =>
        score + (if qToken ∈ wordTokens (toLowerStr text) then
          (((wordTokens (toLowerStr text)).count qToken : ℝ) /
            Real.log ((wordTokens (toLowerStr text)).length + 1))
        else 0)) := by
    funext score qToken
    split <;> simp
  rw [hfun, foldl_add_eq_sum]
  simp

/-- The empty query scores the exact-phrase bonus on every text: the empty
string is a substring of everything. -/
theorem keywordScore_empty_query (text : Str) :
    calculateKeywordScore [] text = 10 :=
  keywordScore_exact [] text List.nil_infix

/-- C5: `calculateKeywordScore` returns the constant 10 whenever the
lower-cased query is a substring of the lower-cased text; otherwise it is
the sum over the query tokens of `termFrequency / ln(textTokenCount + 1)`
for the tokens present among the text tokens, which is 0 when no query
token matches. -/
theorem c5_keyword_score :
    ∀ query text : Str,
      (toLowerStr query <:+: toLowerStr text →
        calculateKeywordScore query text = 10) ∧
      (¬ toLowerStr query <:+: toLowerStr text →
        calculateKeywordScore query text =
          ((wordTokens (toLowerStr query)).map (fun qToken =>
            if qToken ∈ wordTokens (toLowerStr text) then
              (((wordTokens (toLowerStr text)).count qToken : ℝ) /
                Real.log ((wordTokens (toLowerStr text)).length + 1))
            else 0)).sum) ∧
      (¬ toLowerStr query <:+: toLowerStr text →
        (∀ qToken ∈ wordTokens (toLowerStr query),
          qToken ∉ wordTokens (toLowerStr text)) →
        calculateKeywordScore query text = 0) := by
  intro query text
  refine ⟨keywordScore_exact query text, keywordScore_sum query text,
    fun h hnone => ?_⟩
  rw [keywordScore_sum query text h]
  exact List.sum_eq_zero (fun x hx => by
    obtain ⟨qToken, hq, rfl⟩ := List.mem_map.mp hx
    rw [if_neg (hnone qToken hq)])

/-- C5 witness: concrete exact-match, token-sum and no-match evaluations. -/
theorem c5_keyword_score_witness :
    (toLowerStr "API timeout".toList <:+:
      toLowerStr "The API timeout is configured.".toList) ∧
    calculateKeywordScore "API timeout".toList
      "The API timeout is configured.".toList = 10 ∧
    (¬ toLowerStr "cat dog".toList <:+: toLowerStr "dog cat".toList) ∧
    calculateKeywordScore "cat dog".toList "dog cat".toList =
      ((wordTokens (toLowerStr "cat dog".toList)).map (fun qToken =>
        if qToken ∈ wordTokens (toLowerStr "dog cat".toList) then
          (((wordTokens (toLowerStr "dog cat".toList)).count qToken : ℝ) /
            Real.log ((wordTokens (toLowerStr "dog cat".toList)).length + 1))
        else 0)).sum ∧
    calculateKeywordScore "zebra".toList "dog cat".toList = 0 := by
  refine ⟨by decide, (c5_keyword_score "API timeout".toList
      "The API timeout is configured.".toList).1 (by decide),
    by decide, (c5_keyword_score "cat dog".toList "dog cat".toList).2.1
      (by decide),
    (c5_keyword_score "zebra".toList "dog cat".toList).2.2 (by decide)
      (by decide)⟩

/-- C10: the keyword score of the empty query is the exact-phrase bonus 10
on every text (there is no guard against empty queries), so under hybrid
search the empty query contributes `10 * (1 - embeddingWeight)` to every
document's combined score. -/
theorem c10_empty_query_bonus :
    (∀ text : Str, calculateKeywordScore [] text = 10) ∧
    (∀ (cfg : SearchConfig) (doc : DocM ℝ) (qEmb : List ℝ) (sd : ScoredDoc ℝ),
      cfg.enableHybridSearch = true →
      scoreDocEnhanced [] qEmb cfg doc = Except.ok sd →
      sd.score = embeddingScoreVal doc qEmb * cfg.embeddingWeight +
        10 * (1 - cfg.embeddingWeight)) := by
  refine ⟨keywordScore_empty_query, ?_⟩
  intro cfg doc qEmb sd hcfg hok
  rcases hdoc : doc.embedding with _ | e
  · rw [scoreDocEnhanced, hdoc] at hok
    simp only [Except.map] at hok
    injection hok with hsd
    rw [← hsd]
    simp only [embeddingScoreVal, hdoc, combineScores, hcfg, if_true,
      keywordScore_empty_query]
  · rw [scoreDocEnhanced, hdoc] at hok
    simp only [cosineSimilarity] at hok
    by_cases hlen : e.length ≠ qEmb.length
    · rw [if_pos hlen] at hok
      exact absurd hok (by simp [Except.map])
    · rw [if_neg hlen] at hok
      simp only [Except.map] at hok
      injection hok with hsd
      rw [← hsd]
      simp only [embeddingScoreVal, hdoc, combineScores, hcfg, if_true,
        keywordScore_empty_query]

/-- C10 witness: scoring a concrete embedding-less document against the
empty query under the concrete hybrid configuration `cfgW`. -/
theorem c10_empty_query_bonus_witness :
    cfgW.enableHybridSearch = true ∧
    scoreDocEnhanced [] [] cfgW docW = Except.ok sdW ∧
    sdW.score = embeddingScoreVal docW [] * cfgW.embeddingWeight +
      10 * (1 - cfgW.embeddingWeight) :=
  ⟨rfl, rfl, c10_empty_query_bonus.2 cfgW docW [] sdW rfl rfl⟩

/-- Appending a chunk whose index is the current length preserves the
dense-index invariant. -/
theorem idxOk_append (l : List Chunk) (c : Chunk) (hl : IdxOk l)
    (hc : c.chunkIndex = l.length) : IdxOk (l ++ [c]) := by
  rw [IdxOk, List.map_append, List.length_append]
  rw [IdxOk] at hl
  simp [hl, hc, List.range_succ]

/-- One sentence-mode step preserves the dense-index invariant. -/
theorem sentStep_idx (documentId : Str) (cid : Str → ℕ → Str → Str)
    (maxTokens overlapTokens : ℕ) (consumedRev : List Str) (st : SState)
    (s : Str) (h : IdxOk st.chunks) :
    IdxOk (sentStep documentId cid maxTokens overlapTokens consumedRev st s).chunks := by
  rw [sentStep]
  split
  · exact idxOk_append _ _ h rfl
  · exact h

/-- The sentence loop preserves the dense-index invariant. -/
theorem sentLoop_idx (documentId : Str) (cid : Str → ℕ → Str → Str)
    (maxTokens overlapTokens : ℕ) :
    ∀ (ss consumedRev : List Str) (st : SState), IdxOk st.chunks →
      IdxOk (sentLoop documentId cid maxTokens overlapTokens ss consumedRev st).chunks
  | [], _, st, h => h
  | s :: rest, consumedRev, st, h =>
    sentLoop_idx documentId cid maxTokens overlapTokens rest (s :: consumedRev) _
      (sentStep_idx documentId cid maxTokens overlapTokens consumedRev st s h)

/-- One word-mode step preserves the dense-index invariant. -/
theorem wordStep_idx (documentId : Str) (cid : Str → ℕ → Str → Str)
    (maxTokens overlapTokens : ℕ) (st : WState) (w : Str)
    (h : IdxOk st.chunks) :
    IdxOk (wordStep documentId cid maxTokens overlapTokens st w).chunks := by
  rw [wordStep]
  split
  · exact idxOk_append _ _ h rfl
  · exact h

/-- The word loop preserves the dense-index invariant. -/
theorem wordLoop_idx (documentId : Str) (cid : Str → ℕ → Str → Str)
    (maxTokens overlapTokens : ℕ) :
    ∀ (ws : List Str) (st : WState), IdxOk st.chunks →
      IdxOk (wordLoop documentId cid maxTokens overlapTokens ws st).chunks
  | [], st, h => h
  | w :: rest, st, h =>
    wordLoop_idx documentId cid maxTokens overlapTokens rest _
      (wordStep_idx documentId cid maxTokens overlapTokens st w h)

/-- The sentence-mode flush preserves the dense-index invariant. -/
theorem flushSentChunk_idx (documentId : Str) (cid : Str → ℕ → Str → Str)
    (textLen : ℤ) (st : SState) (h : IdxOk st.chunks) :
    IdxOk (flushSentChunk documentId cid textLen st) := by
  rw [flushSentChunk]
  split
  · exact idxOk_append _ _ h rfl
  · exact h

/-- The word-mode flush preserves the dense-index invariant. -/
theorem flushWordChunk_idx (documentId : Str) (cid : Str → ℕ → Str → Str)
    (textLen : ℤ) (st : WState) (h : IdxOk st.chunks) :
    IdxOk (flushWordChunk documentId cid textLen st) := by
  rw [flushWordChunk]
  split
  · exact idxOk_append _ _ h rfl
  · exact h

/-- C3: the chunk indices of `chunkDocument` are exactly the dense sequence
`0 .. n-1`, every chunk's `totalChunks` equals the final count `n`, and
empty or whitespace-only text yields zero chunks — for every document id,
text and option set. -/
theorem c3_chunk_indices_dense :
    ∀ (cid : Str → ℕ → Str → Str) (documentId text : Str) (opts : ChunkOptions),
      ((chunkDocument cid documentId text opts).map (fun c => c.chunkIndex) =
        List.range (chunkDocument cid documentId text opts).length) ∧
      (∀ c ∈ chunkDocument cid documentId text opts,
        c.totalChunks = (chunkDocument cid documentId text opts).length) ∧
      (jsTrim text = [] → chunkDocument cid documentId text opts = []) := by
  intro cid documentId text opts
  by_cases htrim : jsTrim text = []
  · rw [chunkDocument, if_pos htrim]
    exact ⟨rfl, by simp, fun _ => rfl⟩
  · have hbase : IdxOk [] := rfl
    have hidx :
        IdxOk (if opts.preserveSentences then
          flushSentChunk documentId cid text.length
            (sentLoop documentId cid opts.maxTokens opts.overlapTokens
              (splitIntoSentences text) [] ⟨[], [], 0, 0⟩)
        else
          flushWordChunk documentId cid text.length
            (wordLoop documentId cid opts.maxTokens opts.overlapTokens
              (jsSplitWS text) ⟨[], [], 0, 0, 0⟩)) := by
      split
      · exact flushSentChunk_idx documentId cid text.length _
          (sentLoop_idx documentId cid opts.maxTokens opts.overlapTokens
            (splitIntoSentences text) [] ⟨[], [], 0, 0⟩ hbase)
      · exact flushWordChunk_idx documentId cid text.length _
          (wordLoop_idx documentId cid opts.maxTokens opts.overlapTokens
            (jsSplitWS text) ⟨[], [], 0, 0, 0⟩ hbase)
    rw [chunkDocument, if_neg htrim]
    refine ⟨?_, ?_, fun habs => absurd habs htrim⟩
    · rw [IdxOk] at hidx
      simp only [List.map_map, List.length_map]
      exact hidx
    · intro c hc
      rw [List.length_map]
      obtain ⟨c0, _, rfl⟩ := List.mem_map.mp hc
      rfl

/-- C3 witness: a concrete three-chunk document — dense indices `0,1,2`,
`totalChunks = 3` everywhere, and a whitespace-only text chunks to nothing. -/
theorem c3_chunk_indices_dense_witness :
    ((chunkDocument cid0 "d".toList "a. b. c.".toList ⟨2, 1, true⟩).map
      (fun c => c.chunkIndex) = [0, 1, 2]) ∧
    (∀ c ∈ chunkDocument cid0 "d".toList "a. b. c.".toList ⟨2, 1, true⟩,
      c.totalChunks = 3) ∧
    (jsTrim "  ".toList = [] →
      chunkDocument cid0 "d".toList "  ".toList ⟨2, 1, true⟩ = []) := by
  have h1 := c3_chunk_indices_dense cid0 "d".toList "a. b. c.".toList ⟨2, 1, true⟩
  have h2 := c3_chunk_indices_dense cid0 "d".toList "  ".toList ⟨2, 1, true⟩
  refine ⟨?_, ?_, h2.2.2⟩
  · rw [h1.1]
    decide
  · intro c hc
    rw [h1.2.1 c hc]
    decide

/-- The head of a `dropWhile` result fails the dropped predicate. -/
theorem dropWhile_head?_not (p : Char → Bool) :
    ∀ (l : Str) (a : Char), (l.dropWhile p).head? = some a → p a = false
  | [], a, h => by simp [List.dropWhile] at h
  | c :: cs, a, h => by
    rw [List.dropWhile_cons] at h
    by_cases hp : p c
    · rw [if_pos hp] at h
      exact dropWhile_head?_not p cs a h
    · rw [if_neg hp] at h
      injection h with hca
      subst hca
      exact Bool.of_not_eq_true hp

/-- The head of a trimmed string is not whitespace. -/
theorem jsTrim_head?_not_ws (s : Str) (a : Char)
    (h : (jsTrim s).head? = some a) : isWS a = false := by
  rw [jsTrim, List.head?_reverse] at h
  have hsuf : (s.dropWhile isWS).reverse.dropWhile isWS <:+
      (s.dropWhile isWS).reverse := List.dropWhile_suffix isWS
  obtain ⟨u, hu⟩ := hsuf
  have hne : (s.dropWhile isWS).reverse.dropWhile isWS ≠ [] := by
    intro hnil
    rw [hnil] at h
    exact absurd h (by simp)
  have h2 : (s.dropWhile isWS).reverse.getLast? = some a := by
    rw [← hu, List.getLast?_append_of_ne_nil _ hne]
    exact h
  rw [List.getLast?_reverse] at h2
  exact dropWhile_head?_not isWS s a h2

/-- The last character of a trimmed string is not whitespace. -/
theorem jsTrim_getLast?_not_ws (s : Str) (a : Char)
    (h : (jsTrim s).getLast? = some a) : isWS a = false := by
  rw [jsTrim, List.getLast?_reverse] at h
  exact dropWhile_head?_not isWS _ a h

/-- An occurrence of a pattern with a non-dropped head survives
`dropWhile`. -/
theorem infix_dropWhile (p : Char → Bool) (a : Char) (A : Str)
    (ha : p a = false) : ∀ B : Str, (a :: A) <:+: B →
    (a :: A) <:+: B.dropWhile p := by
  have key : ∀ (u v : Str), (a :: A) <:+: (u ++ ((a :: A) ++ v)).dropWhile p := by
    intro u
    induction u with
    | nil =>
      intro v
      rw [List.nil_append, List.cons_append, List.dropWhile_cons,
        if_neg (by simp [ha])]
      exact ⟨[], v, by simp⟩
    | cons c u ih =>
      intro v
      rw [List.cons_append, List.dropWhile_cons]
      split
      · exact ih v
      · exact ⟨c :: u, v, by simp⟩
  intro B hB
  obtain ⟨u, v, rfl⟩ := hB
  rw [List.append_assoc]
  exact key u v

/-- An occurrence of a pattern with non-whitespace edges survives
`jsTrim`. -/
theorem infix_jsTrim (A B : Str) (hne : A ≠ [])
    (hh : ∀ a, A.head? = some a → isWS a = false)
    (hl : ∀ a, A.getLast? = some a → isWS a = false)
    (h : A <:+: B) : A <:+: jsTrim B := by
  obtain ⟨a, A2, rfl⟩ := List.exists_cons_of_ne_nil hne
  have h1 : (a :: A2) <:+: B.dropWhile isWS :=
    infix_dropWhile isWS a A2 (hh a rfl) B h
  have h2 : (a :: A2).reverse <:+: (B.dropWhile isWS).reverse :=
    List.reverse_infix.mpr h1
  obtain ⟨b, R2, hrev⟩ : ∃ b R2, (a :: A2).reverse = b :: R2 :=
    List.exists_cons_of_ne_nil (by simp)
  have hb : isWS b = false := by
    apply hl
    rw [← List.head?_reverse, hrev]
    rfl
  rw [hrev] at h2
  have h3 : (b :: R2) <:+: ((B.dropWhile isWS).reverse).dropWhile isWS :=
    infix_dropWhile isWS b R2 hb _ h2
  rw [jsTrim, ← List.reverse_reverse (a :: A2), hrev]
  exact List.reverse_infix.mpr h3

/-- The trimmed string occurs inside the original. -/
theorem jsTrim_infix_self (s : Str) : jsTrim s <:+: s := by
  rw [jsTrim]
  have h1 : (s.dropWhile isWS).reverse.dropWhile isWS <:+
      (s.dropWhile isWS).reverse := List.dropWhile_suffix isWS
  have h2 : ((s.dropWhile isWS).reverse.dropWhile isWS).reverse <+:
      (s.dropWhile isWS).reverse.reverse := by
    rw [List.reverse_prefix]
    exact h1
  rw [List.reverse_reverse] at h2
  exact h2.isInfix.trans (List.dropWhile_suffix isWS).isInfix

/-- A member of a sentence list occurs inside the space join. -/
theorem mem_joinSpace : ∀ (parts : List Str) (s : Str), s ∈ parts →
    s <:+: joinSpace parts
  | [], s, h => absurd h (List.not_mem_nil s)
  | [p], s, h => by
    rw [List.mem_singleton] at h
    subst h
    exact List.infix_refl s
  | p :: q :: rest, s, h => by
    have hjoin : joinSpace (p :: q :: rest) = p ++ ' ' :: joinSpace (q :: rest) := rfl
    rw [hjoin]
    rcases List.mem_cons.mp h with hp | hmem
    · subst hp
      exact (List.prefix_append s (' ' :: joinSpace (q :: rest))).isInfix
    · have := mem_joinSpace (q :: rest) s hmem
      exact this.trans
        ((List.suffix_cons ' ' (joinSpace (q :: rest))).isInfix.trans
          (List.suffix_append p (' ' :: joinSpace (q :: rest))).isInfix)

/-- The accumulator is a suffix of the overlap-collection result. -/
theorem collectOverlap_acc (B : ℕ) :
    ∀ (l : List Str) (cnt : ℕ) (acc : List Str),
      ∃ pre, (collectOverlap B l cnt acc).1 = pre ++ acc
  | [], cnt, acc => ⟨[], rfl⟩
  | s :: rest, cnt, acc => by
    rw [collectOverlap]
    by_cases h1 : cnt < B
    · rw [if_pos h1]
      by_cases h2 : cnt + estimateTokens s ≤ B
      · rw [if_pos h2]
        obtain ⟨pre, hpre⟩ :=
          collectOverlap_acc B rest (cnt + estimateTokens s) (s :: acc)
        exact ⟨pre ++ [s], by rw [hpre]; simp⟩
      · rw [if_neg h2]
        exact ⟨[], rfl⟩
    · rw [if_neg h1]
      exact ⟨[], rfl⟩

/-- When the most recent sentence fits the overlap budget, the overlap is
non-empty and ends with that sentence. -/
theorem collectOverlap_first (B : ℕ) (s : Str) (rest : List Str)
    (hB : 0 < B) (hs : estimateTokens s ≤ B) :
    ∃ pre, (collectOverlap B (s :: rest) 0 []).1 = pre ++ [s] := by
  rw [collectOverlap, if_pos hB, if_pos (by omega)]
  exact collectOverlap_acc B rest (0 + estimateTokens s) [s]

/-- Sentences produced by `splitIntoSentences` are non-blank. -/
theorem sent_mem_trim_ne (text s : Str) (h : s ∈ splitIntoSentences text) :
    jsTrim s ≠ [] := by
  rw [splitIntoSentences] at h
  have := List.of_mem_filter h
  simpa using this

/-- Any split with a non-empty accumulator produces a non-empty field. -/
theorem splitAux_has_nonempty (isSep : Char → Bool) :
    ∀ (l acc : Str), acc ≠ [] →
      ∃ t, t ∈ jsSplitOnAux isSep l acc false ∧ t ≠ []
  | [], acc, hacc =>
    ⟨acc.reverse, List.mem_singleton.mpr rfl, by simpa using hacc⟩
  | c :: cs, acc, hacc => by
    rw [jsSplitOnAux]
    split
    · exact ⟨acc.reverse, List.mem_cons_self _ _, by simpa using hacc⟩
    · exact splitAux_has_nonempty isSep cs (c :: acc) (by simp)

/-- A string with a non-blank trim has at least one word, so its token
estimate is positive. -/
theorem estimateTokens_pos (s : Str) (h : jsTrim s ≠ []) :
    1 ≤ estimateTokens s := by
  obtain ⟨c, cs, hcs⟩ := List.exists_cons_of_ne_nil h
  have hcws : isWS c = false := jsTrim_head?_not_ws s c (by rw [hcs]; rfl)
  have hwords : 1 ≤ (jsWords s).length := by
    rw [jsWords, jsSplitWS, jsSplitOn, hcs]
    rw [jsSplitOnAux, if_neg (by simp [hcws])]
    obtain ⟨t, ht, htne⟩ := splitAux_has_nonempty isWS cs [c] (by simp)
    have : t ∈ (jsSplitOnAux isWS cs [c] false).filter (fun w => decide (w ≠ [])) :=
      List.mem_filter.mpr ⟨ht, by simpa using htne⟩
    calc 1 ≤ 1 := le_refl 1
    _ ≤ _ := List.length_pos.mpr (List.ne_nil_of_mem this)
  rw [estimateTokens, Nat.le_div_iff_mul_le (by norm_num)]
  omega

/-- Appending the next sentence to the buffer preserves the sentence-loop
invariant. -/
theorem appendSentence_inv (text : Str) (consumedRev : List Str) (st : SState)
    (s : Str) (tok : ℕ) (hs : s ∈ splitIntoSentences text)
    (hinv : SentInv text consumedRev st) :
    SentInv text (s :: consumedRev) (appendSentence st s tok) := by
  obtain ⟨hchain, hlast, hcur⟩ := hinv
  have hstrim := sent_mem_trim_ne text s hs
  have hsne : s ≠ [] := fun hnil => hstrim (by rw [hnil]; rfl)
  have hcur' : (appendSentence st s tok).cur =
      if st.cur ≠ [] then st.cur ++ ' ' :: s else s := rfl
  have hchunks' : (appendSentence st s tok).chunks = st.chunks := rfl
  refine ⟨by rw [hchunks']; exact hchain, ?_, ?_⟩
  · intro c hc
    rw [hchunks'] at hc
    obtain ⟨s0, hs0, h1, h2, h3⟩ := hlast c hc
    by_cases hce : st.cur = []
    · rw [hce] at h3
      exact absurd (List.infix_nil.mp h3) h1
    · refine ⟨s0, hs0, h1, h2, ?_⟩
      rw [hcur', if_pos hce]
      exact h3.trans (List.prefix_append st.cur (' ' :: s)).isInfix
  · intro _
    refine ⟨s, consumedRev, rfl, hs, ?_⟩
    rw [hcur']
    by_cases hce : st.cur = []
    · rw [if_neg (not_not_intro hce)]
      exact jsTrim_infix_self s
    · rw [if_pos hce]
      exact (jsTrim_infix_self s).trans
        ((List.suffix_cons ' ' s).isInfix.trans
          (List.suffix_append st.cur (' ' :: s)).isInfix)

/-- Closing a chunk preserves the sentence-loop invariant when every
sentence fits the overlap budget: the just-closed chunk keeps sharing the
most recent sentence with the overlap-seeded buffer. -/
theorem closeChunk_inv (text documentId : Str) (cid : Str → ℕ → Str → Str)
    (B : ℕ) (consumedRev : List Str) (st : SState)
    (hB : ∀ s2 ∈ splitIntoSentences text, estimateTokens s2 ≤ B)
    (hne : st.cur ≠ [])
    (hinv : SentInv text consumedRev st) :
    SentInv text consumedRev (closeChunk documentId cid B consumedRev st) := by
  obtain ⟨hchain, hlast, hcur⟩ := hinv
  obtain ⟨sm, rest2, hcr, hsm, hsmcur⟩ := hcur hne
  have hsmtrim := sent_mem_trim_ne text sm hsm
  have hBpos : 0 < B :=
    lt_of_lt_of_le (estimateTokens_pos sm hsmtrim) (hB sm hsm)
  obtain ⟨pre, hpre⟩ : ∃ pre, (collectOverlap B consumedRev 0 []).1 = pre ++ [sm] := by
    rw [hcr]
    exact collectOverlap_first B sm rest2 hBpos (hB sm hsm)
  have hsmov : sm ∈ (collectOverlap B consumedRev 0 []).1 := by
    rw [hpre]
    simp
  have hsmnew : jsTrim sm <:+: joinSpace (collectOverlap B consumedRev 0 []).1 :=
    (jsTrim_infix_self sm).trans (mem_joinSpace _ sm hsmov)
  have hchunks' : (closeChunk documentId cid B consumedRev st).chunks =
      st.chunks ++
        [{ id := cid documentId st.chunks.length st.cur
           documentId := documentId
           text := jsTrim st.cur
           startOffset := st.startOff
           endOffset := st.startOff + st.cur.length
           chunkIndex := st.chunks.length
           totalChunks := 0 }] := rfl
  have hcur' : (closeChunk documentId cid B consumedRev st).cur =
      joinSpace (collectOverlap B consumedRev 0 []).1 := rfl
  refine ⟨?_, ?_, ?_⟩
  · rw [hchunks', List.chain'_append]
    refine ⟨hchain, List.chain'_singleton _, ?_⟩
    intro x hx y hy
    obtain ⟨s0, hs0, h1, h2, h3⟩ := hlast x (Option.mem_def.mp hx)
    simp only [List.head?_cons, Option.mem_def, Option.some.injEq] at hy
    subst hy
    exact ⟨s0, hs0, h1, h2,
      infix_jsTrim (jsTrim s0) st.cur h1 (jsTrim_head?_not_ws s0)
        (jsTrim_getLast?_not_ws s0) h3⟩
  · intro c hc
    rw [hchunks', List.getLast?_concat] at hc
    injection hc with hc
    refine ⟨sm, hsm, hsmtrim, ?_, ?_⟩
    · rw [← hc]
      exact infix_jsTrim (jsTrim sm) st.cur hsmtrim (jsTrim_head?_not_ws sm)
        (jsTrim_getLast?_not_ws sm) hsmcur
    · rw [hcur']
      exact hsmnew
  · intro _
    rw [hcur']
    exact ⟨sm, rest2, hcr, hsm, hsmnew⟩

/-- One sentence-loop step preserves the invariant. -/
theorem sentStep_inv (text documentId : Str) (cid : Str → ℕ → Str → Str)
    (maxTokens B : ℕ) (consumedRev : List Str) (st : SState) (s : Str)
    (hs : s ∈ splitIntoSentences text)
    (hB : ∀ s2 ∈ splitIntoSentences text, estimateTokens s2 ≤ B)
    (hinv : SentInv text consumedRev st) :
    SentInv text (s :: consumedRev)
      (sentStep documentId cid maxTokens B consumedRev st s) := by
  rw [sentStep]
  split
  · rename_i hcond
    exact appendSentence_inv text consumedRev _ s _ hs
      (closeChunk_inv text documentId cid B consumedRev st hB hcond.2 hinv)
  · exact appendSentence_inv text consumedRev st s _ hs hinv

/-- The sentence loop preserves the invariant. -/
theorem sentLoop_inv (text documentId : Str) (cid : Str → ℕ → Str → Str)
    (maxTokens B : ℕ)
    (hB : ∀ s2 ∈ splitIntoSentences text, estimateTokens s2 ≤ B) :
    ∀ (ss consumedRev : List Str) (st : SState),
      (∀ s ∈ ss, s ∈ splitIntoSentences text) →
      SentInv text consumedRev st →
      ∃ cr2, SentInv text cr2
        (sentLoop documentId cid maxTokens B ss consumedRev st)
  | [], consumedRev, st, _, hinv => ⟨consumedRev, hinv⟩
  | s :: rest, consumedRev, st, hss, hinv =>
    sentLoop_inv text documentId cid maxTokens B hB rest (s :: consumedRev) _
      (fun x hx => hss x (List.mem_cons_of_mem s hx))
      (sentStep_inv text documentId cid maxTokens B consumedRev st s
        (hss s (List.mem_cons_self s rest)) hB hinv)

/-- C4 (amended): with `preserveSentences = true`, whenever every sentence
of the text fits the overlap budget (its token estimate is at most
`overlapTokens`), every pair of consecutive chunks shares a sentence of the
text — the overlap seeds each new chunk with at least the most recently
consumed sentence.  (The unqualified claim, for arbitrary `overlapTokens >
0`, is false: a sentence whose estimate exceeds the budget produces an
empty overlap.) -/
theorem c4_overlap_amended :
    ∀ (cid : Str → ℕ → Str → Str) (documentId text : Str) (opts : ChunkOptions),
      opts.preserveSentences = true →
      (∀ s ∈ splitIntoSentences text, estimateTokens s ≤ opts.overlapTokens) →
      List.Chain' (SharesSentence text)
        (chunkDocument cid documentId text opts) := by
  intro cid documentId text opts hp hB
  rw [chunkDocument]
  by_cases htrim : jsTrim text = []
  · rw [if_pos htrim]
    exact List.chain'_nil
  · rw [if_neg htrim]
    simp only [hp, if_true]
    obtain ⟨cr2, hinv⟩ := sentLoop_inv text documentId cid opts.maxTokens
      opts.overlapTokens hB (splitIntoSentences text) [] ⟨[], [], 0, 0⟩
      (fun s hsx => hsx)
      ⟨List.chain'_nil, fun c hc => by simp at hc, fun h => absurd rfl h⟩
    have hflush : List.Chain' (SharesSentence text)
        (flushSentChunk documentId cid text.length
          (sentLoop documentId cid opts.maxTokens opts.overlapTokens
            (splitIntoSentences text) [] ⟨[], [], 0, 0⟩)) := by
      rw [flushSentChunk]
      split
      · rw [List.chain'_append]
        refine ⟨hinv.1, List.chain'_singleton _, ?_⟩
        intro x hx y hy
        obtain ⟨s0, hs0, h1, h2, h3⟩ := hinv.2.1 x (Option.mem_def.mp hx)
        simp only [List.head?_cons, Option.mem_def, Option.some.injEq] at hy
        subst hy
        exact ⟨s0, hs0, h1, h2,
          infix_jsTrim (jsTrim s0) _ h1 (jsTrim_head?_not_ws s0)
            (jsTrim_getLast?_not_ws s0) h3⟩
      · exact hinv.1
    rw [List.chain'_map]
    exact List.Chain'.imp
      (fun a b hab => by
        obtain ⟨s0, hs0, h1, h2, h3⟩ := hab
        exact ⟨s0, hs0, h1, h2, h3⟩) hflush

/-- C4 counterexample: with `maxTokens = 2` and `overlapTokens = 1 > 0` the
text `"a. b. c."` yields the three chunks `"a."`, `"b."`, `"c."` — each
sentence's token estimate (2) exceeds the overlap budget, the overlap is
empty, and consecutive chunks share no sentence. -/
theorem c4_overlap_counterexample :
    0 < (⟨2, 1, true⟩ : ChunkOptions).overlapTokens ∧
    2 ≤ (chunkDocument cid0 "d".toList "a. b. c.".toList ⟨2, 1, true⟩).length ∧
    ¬ List.Chain' (SharesSentence "a. b. c.".toList)
        (chunkDocument cid0 "d".toList "a. b. c.".toList ⟨2, 1, true⟩) := by
  have hchunks : chunkDocument cid0 "d".toList "a. b. c.".toList ⟨2, 1, true⟩ =
      [⟨[], "d".toList, "a.".toList, 0, 2, 0, 3⟩,
       ⟨[], "d".toList, "b.".toList, 2, 4, 1, 3⟩,
       ⟨[], "d".toList, "c.".toList, 4, 8, 2, 3⟩] := by decide
  refine ⟨by decide, by rw [hchunks]; decide, ?_⟩
  intro hchain
  rw [hchunks, List.chain'_cons] at hchain
  exact absurd hchain.1 (by decide)

/-- C4 witness: with `overlapTokens = 2` every sentence of `"a. b. c."`
fits the overlap budget and the amended theorem applies — the chunks are
`"a."`, `"a. b."`, `"b. c."`, consecutive pairs sharing `"a."` and `"b."`. -/
theorem c4_overlap_amended_witness :
    (⟨2, 2, true⟩ : ChunkOptions).preserveSentences = true ∧
    (∀ s ∈ splitIntoSentences "a. b. c.".toList,
      estimateTokens s ≤ (⟨2, 2, true⟩ : ChunkOptions).overlapTokens) ∧
    List.Chain' (SharesSentence "a. b. c.".toList)
      (chunkDocument cid0 "d".toList "a. b. c.".toList ⟨2, 2, true⟩) :=
  ⟨rfl, by decide,
    c4_overlap_amended cid0 "d".toList "a. b. c.".toList ⟨2, 2, true⟩ rfl
      (by decide)⟩
